import Mathlib

/-!
# Verification of the gnatsd client message path (`src/server/client.go`)

A shallow embedding of the per-connection session logic of the broker:
argument splitting, `PUB`/`SUB`/`UNSUB` processing, message delivery with
`max`-delivery auto-removal, connection close, and the ping/pong liveness
counter.  Byte strings are modelled as `List Char`; the session's buffered
writer is modelled as the list of protocol lines appended to it; the
`hashmap.HashMap` sid-map is an association list with insert-or-replace
semantics; subscription records are kept in an identity store indexed by
allocation number, so that the sid-map and the subject index share one
mutable record, as the Go code shares one `*subscription` pointer.

Helpers of the repository that are not under `src/` (the `sublist` package,
`parseSize`, the server registry) are modelled from the spec; each such
definition carries a doc comment starting `Modelled from the spec:`.
-/

set_option maxRecDepth 4000

namespace Gnatsd

/-- Byte strings of the wire protocol, as lists of characters. -/
abbrev Bytes := List Char

/-- The four whitespace bytes that separate argument fields in
`splitArg` and in the unrolled splitter of `processPub`
(`src/server/client.go` lines 216 and 260): space, tab, CR, LF. -/
def isArgWhite (b : Char) : Bool :=
  b = ' ' || b = '\t' || b = '\r' || b = '\n'

/-- The scan of `splitArg`: `cur` is the run of non-whitespace bytes in
progress (Go tracks it as the `start` index into the slice). -/
def splitArgAux : Bytes → Bytes → List Bytes
  | [], cur => if cur.isEmpty then [] else [cur]
  | b :: rest, cur =>
    if isArgWhite b then
      if cur.isEmpty then splitArgAux rest [] else cur :: splitArgAux rest []
    else splitArgAux rest (cur ++ [b])

/-- `splitArg` (`src/server/client.go` lines 254-275): splits an argument
byte string into the maximal runs of non-whitespace bytes, in order; runs
of whitespace collapse.  `processPub` inlines the identical loop
(lines 210-229). -/
def splitArg (arg : Bytes) : List Bytes :=
  splitArgAux arg []

/-- Modelled from the spec: the repository's `parseSize` helper lives in a
file not under `src/`.  Per the spec ("the size field must be a
non-negative ASCII integer; negative or unparseable values are a parse
error") it returns the decimal value of a non-empty all-digit byte string
and `-1` otherwise. -/
def parseSize (d : Bytes) : Int :=
  if d ≠ [] ∧ d.all (fun c => c.isDigit) then
    Int.ofNat (d.foldl (fun n c => n * 10 + (c.toNat - '0'.toNat)) 0)
  else -1

/-- A wildcard byte of the subject grammar: `*` or `>`. -/
def isWildcardChar (c : Char) : Bool := c = '*' || c = '>'

/-- Modelled from the spec: `sublist.IsValidLiteralSubject` (the `sublist`
package is not under `src/`).  A literal subject is a non-empty sequence of
non-empty tokens separated by `.`, containing no wildcard characters. -/
def IsValidLiteralSubject (subj : Bytes) : Bool :=
  (subj.splitOn '.').all (fun t => !t.isEmpty && t.all (fun c => !isWildcardChar c))

/-- Modelled from the spec: the validation performed by the Subject Index
on `Insert` ("A subject with `>` anywhere but in the final position, or an
empty token, is never admitted to the Index"). -/
def validPattern (subj : Bytes) : Bool :=
  let toks := subj.splitOn '.'
  toks.all (fun t => !t.isEmpty) && toks.dropLast.all (fun t => t ≠ ['>'])

/-- The `subscription` struct (`src/server/client.go` lines 42-49).  The
owning client pointer is implicit: the embedding models a single session
that owns every subscription in its store. -/
structure Sub where
  subject : Bytes
  queue   : Option Bytes
  sid     : Bytes
  nm      : Int
  max     : Int
deriving Repr, DecidableEq

/-- A protocol line appended to a session's buffered writer. -/
inductive OutLine where
  /-- `+OK\r\n` from `sendOK`. -/
  | ack : OutLine
  /-- `-ERR 'Invalid Subject'\r\n` from `sendErr`. -/
  | errInvalidSubject : OutLine
  /-- `-ERR 'Stale Connection'\r\n` from `processPingTimer`. -/
  | errStale : OutLine
  /-- `PING\r\n` from `processPingTimer`. -/
  | ping : OutLine
  /-- `PONG\r\n` from `processPing`. -/
  | pong : OutLine
deriving Repr, DecidableEq

/-- The `parseState.pa` publish fields set by `processPub`
(`src/server/client.go` lines 231-244). -/
structure PubArgs where
  subject : Bytes
  reply   : Option Bytes
  size    : Int
  szb     : Bytes
deriving Repr, DecidableEq

def PubArgs.init : PubArgs := ⟨[], none, 0, []⟩

/-- The sid-map: `hashmap.HashMap` keyed by sid, holding handles into the
subscription store.  Insert-or-replace (`Set`), lookup (`Get`), delete
(`Remove`) follow map semantics; the map is kept with unique keys. -/
def hmSet (m : List (Bytes × Nat)) (k : Bytes) (v : Nat) : List (Bytes × Nat) :=
  match m with
  | [] => [(k, v)]
  | p :: rest => if p.1 = k then (k, v) :: rest else p :: hmSet rest k v

def hmGet (m : List (Bytes × Nat)) (k : Bytes) : Option Nat :=
  match m with
  | [] => none
  | p :: rest => if p.1 = k then some p.2 else hmGet rest k

def hmRemove (m : List (Bytes × Nat)) (k : Bytes) : List (Bytes × Nat) :=
  m.filter (fun p => p.1 ≠ k)

/-- Lookup in the subscription identity store (first binding wins). -/
def storeGet (s : List (Nat × Sub)) (i : Nat) : Option Sub :=
  match s with
  | [] => none
  | p :: rest => if p.1 = i then some p.2 else storeGet rest i

/-- In-place update of the subscription record at handle `i` (the Go code
mutates the shared `*subscription`). -/
def storeSet (s : List (Nat × Sub)) (i : Nat) (sub : Sub) : List (Nat × Sub) :=
  match s with
  | [] => []
  | p :: rest => if p.1 = i then (i, sub) :: rest else p :: storeSet rest i sub

/-- The state of one client session together with the parts of the broker
it touches: the subscription store, the Subject Index contents (`srv.sl`),
and the Hub registry membership.  Fields mirror the `client` struct
(`src/server/client.go` lines 22-36); `msgs` records, per subscription
handle, the `MSG` deliveries written into this session's writer. -/
structure World where
  conn     : Bool
  atmr     : Bool
  ptmr     : Bool
  verbose  : Bool
  pedantic : Bool
  pout     : Int
  pa       : PubArgs
  subs     : List (Bytes × Nat)
  store    : List (Nat × Sub)
  sl       : List Nat
  registry : Bool
  nextId   : Nat
  wbuf     : List OutLine
  msgs     : List Nat
deriving Repr, DecidableEq

/-- A freshly connected session with an empty sid-map and index. -/
def initWorld (verbose pedantic : Bool) : World :=
  { conn := true, atmr := false, ptmr := true, verbose := verbose
    pedantic := pedantic, pout := 0, pa := PubArgs.init, subs := []
    store := [], sl := [], registry := true, nextId := 0
    wbuf := [], msgs := [] }

/-- Append a line to the session's writer, as `sendOK` / `sendErr` do
(`src/server/client.go` lines 165-179). -/
def emit (w : World) (l : OutLine) : World :=
  { w with wbuf := w.wbuf ++ [l] }

/-- `processSub` (`src/server/client.go` lines 277-309): split the
argument into `subject [queue] sid`; on two or three fields allocate the
subscription, bind it in the sid-map (`subs.Set`), then try to insert it
into the Subject Index; on Index rejection emit `-ERR 'Invalid Subject'`
(the sid-map binding is not undone), else emit `+OK` when verbose.  Any
other field count is a parse error. -/
def processSub (w : World) (argo : Bytes) : Except Unit World :=
  let install := fun (subject : Bytes) (queue : Option Bytes) (sid : Bytes) =>
    let sub : Sub := { subject := subject, queue := queue, sid := sid, nm := 0, max := 0 }
    let i := w.nextId
    let w := { w with store := (i, sub) :: w.store, nextId := w.nextId + 1,
                      subs := hmSet w.subs sid i }
    if validPattern subject then
      let w := { w with sl := w.sl ++ [i] }
      Except.ok (if w.verbose then emit w .ack else w)
    else
      Except.ok (emit w .errInvalidSubject)
  match splitArg argo with
  | [subject, sid] => install subject none sid
  | [subject, queue, sid] => install subject (some queue) sid
  | _ => Except.error ()

/-- `unsubscribe` (`src/server/client.go` lines 311-322): keep the
subscription when a positive limit is set and not yet exceeded; otherwise
remove its sid binding and its Subject Index entry. -/
def unsubscribe (w : World) (i : Nat) : World :=
  match storeGet w.store i with
  | none => w
  | some sub =>
    if sub.max > 0 ∧ sub.nm ≤ sub.max then w
    else
      { w with subs := hmRemove w.subs sub.sid,
               sl := w.sl.filter (fun j => j ≠ i) }

/-- The success-path `deliverMsg` (`src/server/client.go` lines 368-421)
for a subscription owned by this session, with the buffered write
succeeding: bail out when the owner's connection is gone; increment `nm`;
when a positive `max` is now exceeded, call `unsubscribe` and skip the
write; otherwise write the `MSG` line (recorded in `msgs` by handle).
The write-error branch is modelled separately for the delivery-failure
claims. -/
def deliverMsg (w : World) (i : Nat) : World :=
  match storeGet w.store i with
  | none => w
  | some sub =>
    if !w.conn then w
    else
      let sub := { sub with nm := sub.nm + 1 }
      let w := { w with store := storeSet w.store i sub }
      if sub.max > 0 ∧ sub.nm > sub.max then unsubscribe w i
      else { w with msgs := w.msgs ++ [i] }

/-- `processUnsub` (`src/server/client.go` lines 324-349): split into
`sid [max]` (other counts are a parse error; a second field is fed through
`parseSize`, an unparseable one yielding `-1`).  When the sid is bound,
set `max` on the record when positive and call `unsubscribe`; an unknown
sid is skipped.  Finally emit `+OK` when verbose. -/
def processUnsub (w : World) (arg : Bytes) : Except Unit World :=
  let go := fun (sid : Bytes) (mx : Int) =>
    let w :=
      match hmGet w.subs sid with
      | some i =>
        match storeGet w.store i with
        | some sub =>
          let w := if mx > 0 then { w with store := storeSet w.store i { sub with max := mx } } else w
          unsubscribe w i
        | none => w
      | none => w
    Except.ok (if w.verbose then emit w .ack else w)
  match splitArg arg with
  | [sid] => go sid (-1)
  | [sid, m] => go sid (parseSize m)
  | _ => Except.error ()

/-- `processPub` (`src/server/client.go` lines 205-252): split the
argument (inlined loop identical to `splitArg`); two fields are
`subject size`, three are `subject reply size`, anything else is a parse
error; a negative parsed size is an error; when `pedantic` and the
subject is not a valid literal subject, emit `-ERR 'Invalid Subject'` on
the writer but return success. -/
def processPub (w : World) (arg : Bytes) : Except Unit World :=
  let finish := fun (pa : PubArgs) =>
    if pa.size < 0 then Except.error ()
    else
      let w := { w with pa := pa }
      if w.pedantic && !IsValidLiteralSubject pa.subject then
        Except.ok (emit w .errInvalidSubject)
      else Except.ok w
  match splitArg arg with
  | [subject, szb] =>
    finish { subject := subject, reply := none, size := parseSize szb, szb := szb }
  | [subject, reply, szb] =>
    finish { subject := subject, reply := some reply, size := parseSize szb, szb := szb }
  | _ => Except.error ()

/-- `processPong` (`src/server/client.go` lines 196-201): decrement the
outstanding-ping counter, unconditionally. -/
def processPong (w : World) : World :=
  { w with pout := w.pout - 1 }

/-- `closeConnection` (`src/server/client.go` lines 580-604): a no-op on
an already-cleared connection; otherwise stop both timers, flush and
close the connection, unregister the session from the Hub
(`srv.removeClient`, modelled from the spec as registry removal), and
remove every subscription listed in the sid-map (`c.subs.All()`) from the
Subject Index.  The sid-map itself is not cleared. -/
def closeConnection (w : World) : World :=
  if !w.conn then w
  else
    let w := { w with atmr := false, ptmr := false, conn := false }
    let owned := w.subs.map Prod.snd
    { w with registry := false,
             sl := w.sl.filter (fun i => !owned.contains i) }

/-- Token-level matching of a subject pattern against a literal subject's
tokens: `*` matches one token, a final `>` matches one or more trailing
tokens.  Modelled from the spec (§4.2 `Match`); the `sublist` package is
not under `src/`. -/
def patMatch : List Bytes → List Bytes → Bool
  | [], [] => true
  | p :: ps, t :: ts =>
    if p = ['>'] ∧ ps = [] then true
    else (p = ['*'] || p = t) && patMatch ps ts
  | _, _ => false

/-- Modelled from the spec: `Index.Match` over the installed handles —
returns, in index order, the handles whose pattern matches the literal
subject. -/
def slMatch (w : World) (subj : Bytes) : List Nat :=
  w.sl.filter (fun i =>
    match storeGet w.store i with
    | some sub => patMatch (sub.subject.splitOn '.') (subj.splitOn '.')
    | none => false)

/-- `processPingTimer` (`src/server/client.go` lines 505-538): drop the
timer handle; return if the connection is gone; increment the
outstanding-ping counter; above `MaxPingsOut` write
`-ERR 'Stale Connection'` and clear the connection, otherwise write
`PING` and re-arm the timer (the flush is modelled as succeeding). -/
def processPingTimer (maxPingsOut : Int) (w : World) : World :=
  let w := { w with ptmr := false }
  if !w.conn then w
  else
    let w := { w with pout := w.pout + 1 }
    if w.pout > maxPingsOut then
      { w with wbuf := w.wbuf ++ [.errStale], conn := false }
    else
      { w with wbuf := w.wbuf ++ [.ping], ptmr := true }

/-- `n` successive `PONG` operations. -/
def pongN (w : World) : Nat → World
  | 0 => w
  | n + 1 => pongN (processPong w) n

/-- `k` successive ping-timer fires with no intervening `PONG`. -/
def pingTimerN (maxPingsOut : Int) (w : World) : Nat → World
  | 0 => w
  | k + 1 => pingTimerN maxPingsOut (processPingTimer maxPingsOut w) k

/-- `k` successive delivery attempts against the subscription at
handle `i`. -/
def deliverN (w : World) (i : Nat) : Nat → World
  | 0 => w
  | k + 1 => deliverN (deliverMsg w i) i k

/-- Run a fallible session operation, keeping the state on success (used
to chain operations that are known to parse). -/
def runOk (w : World) (f : World → Except Unit World) : World :=
  match f w with
  | .ok w2 => w2
  | .error _ => w

/-- A placeholder subscription record, used only as the default of
`List.getD` at indices proved in range. -/
def subDefault : Sub := { subject := [], queue := none, sid := [], nm := 0, max := 0 }

/-- One step of the queue-group accumulation of `processMsg`
(`src/server/client.go` lines 477-490): append the subscription to its
group, creating the group on first sight. -/
def qmapAdd (qm : List (Bytes × List (Nat × Sub))) (q : Bytes) (p : Nat × Sub) :
    List (Bytes × List (Nat × Sub)) :=
  match qm with
  | [] => [(q, [p])]
  | g :: rest => if g.1 = q then (q, g.2 ++ [p]) :: rest else g :: qmapAdd rest q p

/-- The `qmap` built by the scan of the match result in `processMsg`:
queue subscriptions grouped by queue name, groups in first-appearance
order, members in scan order. -/
def buildQmap (r : List (Nat × Sub)) : List (Bytes × List (Nat × Sub)) :=
  r.foldl (fun qm p =>
    match p.2.queue with
    | none => qm
    | some q => qmapAdd qm q p) []

/-- The sequence of subscriptions `processMsg`
(`src/server/client.go` lines 472-502) invokes `deliverMsg` for, given
the match result `r`: every plain subscription in scan order, then, for
each queue group, the member at index `rand.Int() % len(qsubs)` — the
independent PRNG draw for the group is supplied by the oracle `randf`,
keyed by the group's name (each group is visited exactly once). -/
def processMsgTargets (r : List (Nat × Sub)) (randf : Bytes → Nat) : List (Nat × Sub) :=
  r.filter (fun p => p.2.queue = none) ++
    (buildQmap r).map (fun g => g.2.getD (randf g.1 % g.2.length) (0, subDefault))

/-- The delivery-relevant state of one session endpoint for the
write-error analysis of `deliverMsg`. -/
structure WClient where
  conn     : Bool
  deadline : Bool
  atmr     : Bool
  ptmr     : Bool
  registry : Bool
  avail    : Nat
  written  : Nat
  sl       : Bool
  sidBound : Bool
  pcd      : List Nat
deriving Repr, DecidableEq

/-- Originating session, target session, and the (shared, mutable)
subscription record being delivered to. -/
structure DState where
  origin : WClient
  target : WClient
  sub    : Sub
deriving Repr, DecidableEq

/-- `client.unsubscribe` as it acts on the target's sid-map and Index
membership flags. -/
def targetUnsub (c : WClient) (sub : Sub) : WClient :=
  if sub.max > 0 ∧ sub.nm ≤ sub.max then c
  else { c with sl := false, sidBound := false }

/-- `deliverMsg` (`src/server/client.go` lines 368-436) with the
buffered-writer outcome as an oracle: `failStep = some (j, tmo)` makes
the `j`-th of the three writes (header, payload, terminator) return an
error whose `net.Error` timeout classification is `tmo`; `none` means
all three writes succeed.  `tid` is the target's client id for the
pending-flush set.  On a timeout the target is closed as a slow consumer
(its `closeConnection` clears timers and connection, unregisters it and
drops its subscriptions from the Index); on any other error the write is
only logged.  Locks are implicit in the sequential embedding (every
`Lock`/`Unlock` pair in the source is balanced on each path). -/
def deliverMsgNet (st : DState) (tid hdrLen msgLen : Nat)
    (failStep : Option (Nat × Bool)) : DState :=
  if !st.target.conn then st
  else
    let sub1 := { st.sub with nm := st.sub.nm + 1 }
    let st := { st with sub := sub1 }
    if sub1.max > (0 : Int) ∧ sub1.nm > sub1.max then
      { st with target := targetUnsub st.target sub1 }
    else
      let deadlineSet := st.target.avail < hdrLen + msgLen + 2
      let t0 := if deadlineSet then { st.target with deadline := true } else st.target
      match failStep with
      | none =>
        let t1 := { t0 with
          written := t0.written + hdrLen + msgLen + 2
          deadline := if deadlineSet then false else t0.deadline }
        { st with
          target := t1
          origin := { st.origin with pcd := st.origin.pcd ++ [tid] } }
      | some (j, tmo) =>
        let pre := if j = 0 then 0 else if j = 1 then hdrLen else hdrLen + msgLen
        let t1 := { t0 with
          written := t0.written + pre
          deadline := if deadlineSet then false else t0.deadline }
        if tmo then
          { st with target := { t1 with
              conn := false, atmr := false, ptmr := false
              registry := false, sl := false } }
        else
          { st with target := t1 }

/-- The session operations of the C2 consistency claim. -/
inductive SOp where
  | sub (arg : Bytes)
  | unsub (arg : Bytes)
  | deliver (i : Nat)
deriving Repr

def applyOp (w : World) : SOp → World
  | .sub a => runOk w (fun w2 => processSub w2 a)
  | .unsub a => runOk w (fun w2 => processUnsub w2 a)
  | .deliver i => deliverMsg w i

def runOps (w : World) : List SOp → World
  | [] => w
  | op :: ops => runOps (applyOp w op) ops

/-- Admissibility of an operation in a state: a `SUB` parses, its subject
is accepted by the Index and its sid is not already bound; an `UNSUB`
parses; a delivery targets a handle currently in the Index, as every real
delivery does (they are produced by `Index.Match`). -/
def admissible (w : World) : SOp → Bool
  | .sub a =>
    match splitArg a with
    | [subject, sid] => validPattern subject && (hmGet w.subs sid).isNone
    | [subject, _, sid] => validPattern subject && (hmGet w.subs sid).isNone
    | _ => false
  | .unsub a =>
    match splitArg a with
    | [_] => true
    | [_, _] => true
    | _ => false
  | .deliver i => w.sl.contains i

def admissibleRun (w : World) : List SOp → Bool
  | [] => true
  | op :: ops => admissible w op && admissibleRun (applyOp w op) ops

/-- The sid-map / Subject Index consistency check of the C2 claim: every
handle bound in the sid-map is installed in the Index and conversely. -/
def sidIndexConsistent (w : World) : Bool :=
  w.subs.all (fun p => w.sl.contains p.2) &&
    w.sl.all (fun i => w.subs.any (fun p => p.2 = i))

/-- The structural invariant tying the sid-map, the Subject Index and the
subscription store together: the Index holds exactly the bound handles (in
binding order), sids and handles are unique, handles are below the
allocation counter, and every binding resolves in the store to a record
carrying its sid. -/
def Inv (w : World) : Prop :=
  w.sl = w.subs.map Prod.snd ∧
  (w.subs.map Prod.fst).Nodup ∧
  (w.subs.map Prod.snd).Nodup ∧
  (∀ p ∈ w.subs, p.2 < w.nextId) ∧
  (∀ p ∈ w.subs, ∃ sub, storeGet w.store p.2 = some sub ∧ sub.sid = p.1)

theorem pongN_pout (w : World) (n : Nat) :
    (pongN w n).pout = w.pout - n ∧ (pongN w n).conn = w.conn := by
  induction n generalizing w with
  | zero => simp [pongN]
  | succ n ih =>
    have h := ih (processPong w)
    simp only [pongN]
    refine ⟨?_, ?_⟩
    · rw [h.1]; simp only [processPong]; push_cast; ring
    · rw [h.2]; rfl

theorem pingTimerN_closed (M : Int) (w : World) (k : Nat) (h : w.conn = false) :
    (pingTimerN M w k).conn = false := by
  induction k generalizing w with
  | zero => simpa [pingTimerN]
  | succ k ih =>
    have hstep : (processPingTimer M w).conn = false := by
      simp [processPingTimer, h]
    simpa [pingTimerN] using ih _ hstep

theorem pingTimerN_conn (M : Int) (w : World) (k : Nat)
    (hconn : w.conn = true) (hle : w.pout ≤ M) :
    (pingTimerN M w k).conn = decide ((k : Int) ≤ M - w.pout) := by
  induction k generalizing w with
  | zero =>
    simp only [pingTimerN, hconn]
    rw [eq_comm, decide_eq_true_eq]
    push_cast
    omega
  | succ k ih =>
    by_cases hc : w.pout + 1 > M
    · have hstep : (processPingTimer M w).conn = false := by
        simp [processPingTimer, hconn, hc]
      have : (pingTimerN M w (k + 1)).conn = false := by
        simpa [pingTimerN] using pingTimerN_closed M _ k hstep
      rw [this]
      have : ¬ ((k : Int) + 1 ≤ M - w.pout) := by omega
      simp [this]
    · have hstep : processPingTimer M w =
        { w with pout := w.pout + 1, wbuf := w.wbuf ++ [.ping], ptmr := true } := by
        simp [processPingTimer, hconn, hc]
      have h2 := ih ({ w with pout := w.pout + 1, wbuf := w.wbuf ++ [.ping], ptmr := true })
        (by simp [hconn]) (by simp; omega)
      simp only [pingTimerN, hstep, h2]
      rw [decide_eq_decide]
      push_cast
      omega

/-- **C9.** `processPong` decrements the outstanding-ping counter
unconditionally, with no lower bound at zero: `n` `PONG`s with no
intervening timer fire lower `pout` by exactly `n` (so surplus `PONG`s
drive it negative), and the stale-connection close (`pout > MaxPingsOut`
on a ping-timer fire) is then reached only at fire number
`M - pout + n + 1`, one ping interval later per surplus `PONG`. -/
theorem processPong_no_lower_bound (w : World) (n k : Nat) (M : Int)
    (hconn : w.conn = true) (hle : w.pout ≤ M) :
    (pongN w n).pout = w.pout - n ∧
    (pingTimerN M (pongN w n) k).conn = decide ((k : Int) ≤ M - w.pout + n) := by
  obtain ⟨hp, hc⟩ := pongN_pout w n
  refine ⟨hp, ?_⟩
  rw [pingTimerN_conn M _ k (by rw [hc]; exact hconn) (by rw [hp]; omega), hp]
  rw [decide_eq_decide]
  omega

/-- Witness for `processPong_no_lower_bound`: from a fresh session
(`pout = 0`) and `MaxPingsOut = 1`, two surplus `PONG`s leave
`pout = -2`, and the session survives three timer fires. -/
theorem processPong_no_lower_bound_witness :
    (pongN (initWorld true true) 2).pout = (initWorld true true).pout - 2 ∧
    (pingTimerN 1 (pongN (initWorld true true) 2) 3).conn =
      decide ((3 : Int) ≤ 1 - (initWorld true true).pout + 2) :=
  processPong_no_lower_bound (initWorld true true) 2 3 1 (by decide) (by decide)

/-- **C10.** `processUnsub` on a sid that is not bound in the session's
sid-map returns success and leaves the session unchanged except for the
`+OK` acknowledgement when verbose: no sid-map, Index or store mutation,
and no error line. -/
theorem processUnsub_unknown_sid (w : World) (arg sid : Bytes)
    (hform : splitArg arg = [sid] ∨ ∃ m, splitArg arg = [sid, m])
    (hmiss : hmGet w.subs sid = none) :
    processUnsub w arg = .ok (if w.verbose then emit w .ack else w) := by
  rcases hform with h | ⟨m, h⟩ <;> simp [processUnsub, h, hmiss]

/-- Witness for `processUnsub_unknown_sid`: `UNSUB 9` on a verbose fresh
session acknowledges with `+OK` and changes nothing else. -/
theorem processUnsub_unknown_sid_witness :
    processUnsub (initWorld true false) ['9'] =
      .ok (if (initWorld true false).verbose then emit (initWorld true false) .ack
           else initWorld true false) :=
  processUnsub_unknown_sid (initWorld true false) ['9'] ['9']
    (Or.inl (by decide)) (by decide)

/-- **C3.** With `pedantic` set, a well-formed `PUB` whose subject is not
a valid literal subject makes `processPub` append
`-ERR 'Invalid Subject'` to the session writer and still return success:
the connection stays up, sid-map and Index are untouched, and the publish
arguments are recorded so matching and delivery proceed as for any
successful `PUB`. -/
theorem processPub_pedantic_soft (w : World) (arg subject szb : Bytes)
    (hped : w.pedantic = true)
    (hform : splitArg arg = [subject, szb] ∨ ∃ rep, splitArg arg = [subject, rep, szb])
    (hsize : 0 ≤ parseSize szb)
    (hbad : IsValidLiteralSubject subject = false) :
    ∃ w2, processPub w arg = .ok w2 ∧
      w2.wbuf = w.wbuf ++ [.errInvalidSubject] ∧
      w2.conn = w.conn ∧ w2.subs = w.subs ∧ w2.sl = w.sl ∧
      w2.pa.subject = subject ∧ w2.pa.szb = szb := by
  have hlt : ¬ (parseSize szb < 0) := by omega
  rcases hform with h | ⟨rep, h⟩
  · refine ⟨emit { w with
        pa := { subject := subject, reply := none, size := parseSize szb, szb := szb } }
        .errInvalidSubject, ?_, rfl, rfl, rfl, rfl, rfl, rfl⟩
    simp [processPub, h, hped, hbad, hlt]
  · refine ⟨emit { w with
        pa := { subject := subject, reply := some rep, size := parseSize szb, szb := szb } }
        .errInvalidSubject, ?_, rfl, rfl, rfl, rfl, rfl, rfl⟩
    simp [processPub, h, hped, hbad, hlt]

/-- Witness for `processPub_pedantic_soft`: `PUB foo.* 5` on a pedantic
session. -/
theorem processPub_pedantic_soft_witness :
    ∃ w2, processPub (initWorld false true) ['f','o','o','.','*',' ','5'] = .ok w2 ∧
      w2.wbuf = (initWorld false true).wbuf ++ [.errInvalidSubject] ∧
      w2.conn = (initWorld false true).conn ∧
      w2.subs = (initWorld false true).subs ∧
      w2.sl = (initWorld false true).sl ∧
      w2.pa.subject = ['f','o','o','.','*'] ∧ w2.pa.szb = ['5'] :=
  processPub_pedantic_soft (initWorld false true) ['f','o','o','.','*',' ','5']
    ['f','o','o','.','*'] ['5'] rfl (Or.inl (by decide)) (by decide) (by decide)

theorem parseSize_nonneg_iff (d : Bytes) :
    0 ≤ parseSize d ↔ (d ≠ [] ∧ d.all (fun c => c.isDigit)) := by
  by_cases h : d ≠ [] ∧ d.all (fun c => c.isDigit)
  · rw [parseSize, if_pos h]
    exact iff_of_true (Int.ofNat_nonneg _) h
  · rw [parseSize, if_neg h]
    exact iff_of_false (by omega) h

/-- **C6.** `processPub` fails exactly when the whitespace-split argument
(space, tab, CR, LF separated, runs collapsed — `splitArg`) has other
than two or three fields, or the final field is not a non-empty all-digit
string (a non-negative ASCII integer); on success the subject, the
optional reply and the size are recorded in `pa`. -/
theorem processPub_error_iff (w : World) (arg : Bytes) :
    ((∃ w2, processPub w arg = .ok w2) ↔
      (((splitArg arg).length = 2 ∨ (splitArg arg).length = 3) ∧
        (splitArg arg).getLastD [] ≠ [] ∧
        ((splitArg arg).getLastD []).all (fun c => c.isDigit))) ∧
    (∀ s z w2, splitArg arg = [s, z] → processPub w arg = .ok w2 →
      w2.pa.subject = s ∧ w2.pa.reply = none ∧
        w2.pa.size = parseSize z ∧ w2.pa.szb = z) ∧
    (∀ s rep z w2, splitArg arg = [s, rep, z] → processPub w arg = .ok w2 →
      w2.pa.subject = s ∧ w2.pa.reply = some rep ∧
        w2.pa.size = parseSize z ∧ w2.pa.szb = z) := by
  rcases h : splitArg arg with _ | ⟨a, _ | ⟨b, _ | ⟨c, _ | ⟨d, rest⟩⟩⟩⟩
  · refine ⟨by simp [processPub, h], ?_, ?_⟩
    · intro s z w2 hs _; simp at hs
    · intro s rep z w2 hs _; simp at hs
  · refine ⟨by simp [processPub, h], ?_, ?_⟩
    · intro s z w2 hs _; simp at hs
    · intro s rep z w2 hs _; simp at hs
  · refine ⟨?_, ?_, ?_⟩
    · constructor
      · rintro ⟨w2, hw2⟩
        simp only [processPub, h] at hw2
        by_cases hz : parseSize b < 0
        · rw [if_pos hz] at hw2; cases hw2
        · have hz2 := (parseSize_nonneg_iff b).mp (by omega)
          refine ⟨Or.inl rfl, ?_, ?_⟩ <;>
            simp [List.getLastD_cons, hz2.1, hz2.2]
      · rintro ⟨-, h1, h2⟩
        have hz : ¬ parseSize b < 0 := by
          have h3 : 0 ≤ parseSize b := (parseSize_nonneg_iff b).mpr
            ⟨by simpa [List.getLastD_cons] using h1,
             by simpa [List.getLastD_cons] using h2⟩
          omega
        simp only [processPub, h, if_neg hz]
        by_cases hbr : w.pedantic && !IsValidLiteralSubject a
        · rw [if_pos hbr]; exact ⟨_, rfl⟩
        · rw [if_neg hbr]; exact ⟨_, rfl⟩
    · intro s z w2 hs hok
      injection hs with h1 hs; injection hs with h2 hs
      subst h1; subst h2
      simp only [processPub, h] at hok
      by_cases hz : parseSize b < 0
      · rw [if_pos hz] at hok; cases hok
      · rw [if_neg hz] at hok
        by_cases hbr : w.pedantic && !IsValidLiteralSubject a
        · rw [if_pos hbr] at hok; cases hok; exact ⟨rfl, rfl, rfl, rfl⟩
        · rw [if_neg hbr] at hok; cases hok; exact ⟨rfl, rfl, rfl, rfl⟩
    · intro s rep z w2 hs _; simp at hs
  · refine ⟨?_, ?_, ?_⟩
    · constructor
      · rintro ⟨w2, hw2⟩
        simp only [processPub, h] at hw2
        by_cases hz : parseSize c < 0
        · rw [if_pos hz] at hw2; cases hw2
        · have hz2 := (parseSize_nonneg_iff c).mp (by omega)
          refine ⟨Or.inr rfl, ?_, ?_⟩ <;>
            simp [List.getLastD_cons, hz2.1, hz2.2]
      · rintro ⟨-, h1, h2⟩
        have hz : ¬ parseSize c < 0 := by
          have h3 : 0 ≤ parseSize c := (parseSize_nonneg_iff c).mpr
            ⟨by simpa [List.getLastD_cons] using h1,
             by simpa [List.getLastD_cons] using h2⟩
          omega
        simp only [processPub, h, if_neg hz]
        by_cases hbr : w.pedantic && !IsValidLiteralSubject a
        · rw [if_pos hbr]; exact ⟨_, rfl⟩
        · rw [if_neg hbr]; exact ⟨_, rfl⟩
    · intro s z w2 hs _; simp at hs
    · intro s rep z w2 hs hok
      injection hs with h1 hs; injection hs with h2 hs; injection hs with h3 hs
      subst h1; subst h2; subst h3
      simp only [processPub, h] at hok
      by_cases hz : parseSize c < 0
      · rw [if_pos hz] at hok; cases hok
      · rw [if_neg hz] at hok
        by_cases hbr : w.pedantic && !IsValidLiteralSubject a
        · rw [if_pos hbr] at hok; cases hok; exact ⟨rfl, rfl, rfl, rfl⟩
        · rw [if_neg hbr] at hok; cases hok; exact ⟨rfl, rfl, rfl, rfl⟩
  · refine ⟨?_, ?_, ?_⟩
    · constructor
      · rintro ⟨w2, hw2⟩
        simp only [processPub, h] at hw2
        cases hw2
      · rintro ⟨h1, -, -⟩
        rcases h1 with h1 | h1 <;>
          (simp only [List.length_cons] at h1; omega)
    · intro s z w2 hs _; simp at hs
    · intro s rep z w2 hs _; simp at hs

/-- Witness for `processPub_error_iff`: `PUB foo 5` parses; `PUB foo 5x`
is a parse error (size is not all digits). -/
theorem processPub_error_iff_witness :
    (∃ w2, processPub (initWorld false false) ['f','o','o',' ','5'] = .ok w2) ∧
    ¬ (∃ w2, processPub (initWorld false false) ['f','o','o',' ','5','x'] = .ok w2) := by
  constructor
  · exact (processPub_error_iff (initWorld false false)
      ['f','o','o',' ','5']).1.mpr (by decide)
  · intro hex
    have h1 := (processPub_error_iff (initWorld false false)
      ['f','o','o',' ','5','x']).1.mp hex
    revert h1
    decide

theorem storeGet_storeSet_self (s : List (Nat × Sub)) (i : Nat) (v sub : Sub)
    (h : storeGet s i = some sub) : storeGet (storeSet s i v) i = some v := by
  induction s with
  | nil => simp [storeGet] at h
  | cons p rest ih =>
    by_cases hp : p.1 = i
    · simp [storeGet, storeSet, hp]
    · rw [storeGet, if_neg hp] at h
      rw [storeSet, if_neg hp, storeGet, if_neg hp]
      exact ih h

theorem storeGet_storeSet_ne (s : List (Nat × Sub)) (i j : Nat) (v : Sub)
    (h : j ≠ i) : storeGet (storeSet s i v) j = storeGet s j := by
  induction s with
  | nil => simp [storeGet, storeSet]
  | cons p rest ih =>
    by_cases hp : p.1 = i
    · rw [storeSet, if_pos hp, storeGet, if_neg (by omega), storeGet,
        if_neg (by omega)]
    · rw [storeSet, if_neg hp, storeGet, storeGet]
      by_cases hj : p.1 = j
      · rw [if_pos hj, if_pos hj]
      · rw [if_neg hj, if_neg hj]; exact ih

/-- `unsubscribe` in terms of the record the handle resolves to. -/
theorem unsubscribe_eq (w : World) (i : Nat) (sub : Sub)
    (h : storeGet w.store i = some sub) :
    unsubscribe w i =
      if sub.max > 0 ∧ sub.nm ≤ sub.max then w
      else { w with subs := hmRemove w.subs sub.sid
                    sl := w.sl.filter (fun j => j ≠ i) } := by
  rw [unsubscribe, h]

/-- **C5 (amended).** `processUnsub sid max` with `max > 0` on an
installed subscription sets its limit and leaves it in the sid-map and
the Index exactly when its delivery count does not already exceed the new
limit (removal then happens on the first delivery attempt after the
`max`-th delivery, not on the `max`-th delivery).  `processUnsub sid`
without a max removes the subscription immediately **unless** a
previously set positive limit is not yet exceeded, in which case the
subscription stays installed. -/
theorem processUnsub_limit (w : World) (arg sid m : Bytes) (i : Nat) (sub : Sub)
    (hbind : hmGet w.subs sid = some i) (hstore : storeGet w.store i = some sub) :
    (∀ mx : Int, splitArg arg = [sid, m] → parseSize m = mx → 0 < mx →
      processUnsub w arg = .ok (
        let w1 : World := { w with store := storeSet w.store i { sub with max := mx } }
        let w2 : World :=
          if sub.nm ≤ mx then w1
          else { w1 with subs := hmRemove w1.subs sub.sid
                         sl := w1.sl.filter (fun j => j ≠ i) }
        if w.verbose then emit w2 .ack else w2)) ∧
    (splitArg arg = [sid] →
      processUnsub w arg = .ok (
        let w2 : World :=
          if sub.max > 0 ∧ sub.nm ≤ sub.max then w
          else { w with subs := hmRemove w.subs sub.sid
                        sl := w.sl.filter (fun j => j ≠ i) }
        if w.verbose then emit w2 .ack else w2)) := by
  constructor
  · intro mx hsplit hparse hpos
    have hupd : storeGet (storeSet w.store i { sub with max := mx }) i =
        some { sub with max := mx } := storeGet_storeSet_self _ _ _ _ hstore
    simp only [processUnsub, hsplit, hbind, hstore, hparse, if_pos hpos]
    rw [unsubscribe_eq _ _ _ hupd]
    by_cases hnm : sub.nm ≤ mx
    · simp [hnm, hpos]
    · simp [hnm]
  · intro hsplit
    have hneg : ¬ ((-1 : Int) > 0) := by omega
    simp only [processUnsub, hsplit, hbind, hstore, if_neg hneg]
    rw [unsubscribe_eq _ _ _ hstore]
    by_cases hA : sub.max > 0 ∧ sub.nm ≤ sub.max <;> simp [hA]

/-- Witness for `processUnsub_limit`: after `SUB foo 1`, the operation
`UNSUB 1 5` keeps the subscription installed with limit 5. -/
theorem processUnsub_limit_witness :
    processUnsub (runOk (initWorld false false)
        (fun w => processSub w ['f','o','o',' ','1'])) ['1',' ','5'] =
      .ok (
        let w0 : World := runOk (initWorld false false)
          (fun w => processSub w ['f','o','o',' ','1'])
        let sub0 : Sub :=
          { subject := ['f','o','o'], queue := none, sid := ['1'], nm := 0, max := 0 }
        let w1 : World := { w0 with store := storeSet w0.store 0 { sub0 with max := 5 } }
        let w2 : World :=
          if sub0.nm ≤ (5 : Int) then w1
          else { w1 with subs := hmRemove w1.subs sub0.sid
                         sl := w1.sl.filter (fun j => j ≠ 0) }
        if w0.verbose then emit w2 .ack else w2) :=
  (processUnsub_limit (runOk (initWorld false false)
      (fun w => processSub w ['f','o','o',' ','1'])) ['1',' ','5'] ['1'] ['5'] 0
      { subject := ['f','o','o'], queue := none, sid := ['1'], nm := 0, max := 0 }
      (by decide) (by decide)).1 5 (by decide) (by decide) (by decide)

/-- **C5 counterexample.** After `SUB foo 1` and `UNSUB 1 5` (limit set,
no deliveries yet), the subsequent `UNSUB 1` — a `processUnsub` without a
positive max — does **not** remove the subscription: it stays bound in
the sid-map and installed in the Index, refuting the claim that
`processUnsub` without a positive max removes it immediately. -/
theorem processUnsub_no_max_keeps :
    (let w1 := runOk (initWorld false false)
        (fun w => processSub w ['f','o','o',' ','1'])
     let w2 := runOk w1 (fun w => processUnsub w ['1',' ','5'])
     let w3 := runOk w2 (fun w => processUnsub w ['1'])
     hmGet w3.subs ['1'] = some 0 ∧ w3.sl = [0]) := by decide

theorem deliverMsg_write_eq (w : World) (i : Nat) (sub : Sub)
    (hstore : storeGet w.store i = some sub) (hconn : w.conn = true)
    (hkeep : ¬ (sub.max > 0 ∧ sub.nm + 1 > sub.max)) :
    deliverMsg w i =
      { w with store := storeSet w.store i { sub with nm := sub.nm + 1 }
               msgs := w.msgs ++ [i] } := by
  simp only [deliverMsg, hstore, hconn]
  simp [hkeep]

theorem deliverMsg_drop_eq (w : World) (i : Nat) (sub : Sub)
    (hstore : storeGet w.store i = some sub) (hconn : w.conn = true)
    (hm : sub.max > 0) (hover : sub.nm + 1 > sub.max) :
    deliverMsg w i =
      { w with store := storeSet w.store i { sub with nm := sub.nm + 1 }
               subs := hmRemove w.subs sub.sid
               sl := w.sl.filter (fun j => j ≠ i) } := by
  have hupd : storeGet (storeSet w.store i { sub with nm := sub.nm + 1 }) i =
      some { sub with nm := sub.nm + 1 } := storeGet_storeSet_self _ _ _ _ hstore
  have hnk : ¬ (sub.max > 0 ∧ sub.nm + 1 ≤ sub.max) := by omega
  simp only [deliverMsg, hstore, hconn]
  rw [if_neg (by simp)]
  rw [if_pos (show sub.max > 0 ∧ sub.nm + 1 > sub.max from ⟨hm, hover⟩)]
  simp only [unsubscribe, hupd]
  rw [if_neg hnk]

/-- The state after `k` delivery attempts to the subscription at handle
`i`, starting from any record with a positive limit: the count grows by
`k`, the `MSG` lines written are the attempts that kept the count within
the limit, and sid-map binding and Index entry disappear exactly when an
attempt exceeded it. -/
theorem deliverN_char (w : World) (i : Nat) (sub : Sub) (k : Nat)
    (hstore : storeGet w.store i = some sub) (hconn : w.conn = true)
    (hm : 0 < sub.max) :
    storeGet (deliverN w i k).store i = some { sub with nm := sub.nm + k } ∧
    (deliverN w i k).conn = true ∧
    (deliverN w i k).msgs =
      w.msgs ++ List.replicate
        (min (sub.nm + k) sub.max - min sub.nm sub.max).toNat i ∧
    (deliverN w i k).subs =
      (if 0 < k ∧ sub.max < sub.nm + k then hmRemove w.subs sub.sid
       else w.subs) ∧
    (deliverN w i k).sl =
      (if 0 < k ∧ sub.max < sub.nm + k then w.sl.filter (fun j => j ≠ i)
       else w.sl) := by
  induction k generalizing w sub with
  | zero =>
    refine ⟨by simpa [deliverN] using hstore, by simpa [deliverN] using hconn,
      ?_, ?_, ?_⟩ <;> simp [deliverN]
  | succ k ih =>
    by_cases hover : sub.nm + 1 > sub.max
    · have hw1 := deliverMsg_drop_eq w i sub hstore hconn hm hover
      have hih := ih { w with store := storeSet w.store i { sub with nm := sub.nm + 1 }
                              subs := hmRemove w.subs sub.sid
                              sl := w.sl.filter (fun j => j ≠ i) }
        { sub with nm := sub.nm + 1 }
        (storeGet_storeSet_self _ _ _ _ hstore) hconn hm
      rw [show deliverN w i (k + 1) = deliverN (deliverMsg w i) i k from rfl, hw1]
      obtain ⟨ih1, ih2, ih3, ih4, ih5⟩ := hih
      refine ⟨?_, ih2, ?_, ?_, ?_⟩
      · rw [ih1]
        congr 1
        simp only [Sub.mk.injEq, and_true, true_and]
        push_cast
        ring
      · rw [ih3]
        simp only []
        have hc1 : (min (sub.nm + 1 + k) sub.max - min (sub.nm + 1) sub.max).toNat
            = 0 := by omega
        have hc2 : (min (sub.nm + (k + 1 : Nat)) sub.max -
            min sub.nm sub.max).toNat = 0 := by push_cast; omega
        rw [hc1, hc2]
      · rw [ih4]
        simp only []
        have ht : (0 : Int) < sub.max → sub.max < sub.nm + (k + 1 : Nat) := by
          push_cast; omega
        by_cases hk : 0 < k
        · rw [if_pos ⟨hk, by omega⟩,
            if_pos ⟨Nat.succ_pos k, by push_cast; omega⟩]
          simp [hmRemove, List.filter_filter]
        · rw [if_neg (by tauto),
            if_pos ⟨Nat.succ_pos k, by push_cast; omega⟩]
      · rw [ih5]
        simp only []
        by_cases hk : 0 < k
        · rw [if_pos ⟨hk, by omega⟩,
            if_pos ⟨Nat.succ_pos k, by push_cast; omega⟩]
          simp [List.filter_filter]
        · rw [if_neg (by tauto),
            if_pos ⟨Nat.succ_pos k, by push_cast; omega⟩]
    · have hw1 := deliverMsg_write_eq w i sub hstore hconn (by omega)
      have hih := ih { w with store := storeSet w.store i { sub with nm := sub.nm + 1 }
                              msgs := w.msgs ++ [i] }
        { sub with nm := sub.nm + 1 }
        (storeGet_storeSet_self _ _ _ _ hstore) hconn hm
      rw [show deliverN w i (k + 1) = deliverN (deliverMsg w i) i k from rfl, hw1]
      obtain ⟨ih1, ih2, ih3, ih4, ih5⟩ := hih
      refine ⟨?_, ih2, ?_, ?_, ?_⟩
      · rw [ih1]
        congr 1
        simp only [Sub.mk.injEq, and_true, true_and]
        push_cast
        ring
      · rw [ih3]
        simp only []
        have hc : (min (sub.nm + (k + 1 : Nat)) sub.max - min sub.nm sub.max).toNat
            = (min (sub.nm + 1 + k) sub.max - min (sub.nm + 1) sub.max).toNat + 1 := by
          push_cast; omega
        rw [hc, List.append_assoc]
        congr 1
      · rw [ih4]
        simp only []
        by_cases hk : 0 < k ∧ sub.max < sub.nm + 1 + k
        · rw [if_pos hk, if_pos ⟨Nat.succ_pos k, by push_cast; omega⟩]
        · rw [if_neg hk, if_neg ?_]
          rintro ⟨-, hc2⟩
          revert hc2
          push_cast
          intro hc2
          rcases Nat.eq_zero_or_pos k with hk0 | hk0
          · omega
          · exact absurd ⟨hk0, by omega⟩ hk
      · rw [ih5]
        simp only []
        by_cases hk : 0 < k ∧ sub.max < sub.nm + 1 + k
        · rw [if_pos hk, if_pos ⟨Nat.succ_pos k, by push_cast; omega⟩]
        · rw [if_neg hk, if_neg ?_]
          rintro ⟨-, hc2⟩
          revert hc2
          push_cast
          intro hc2
          rcases Nat.eq_zero_or_pos k with hk0 | hk0
          · omega
          · exact absurd ⟨hk0, by omega⟩ hk

/-- **C1 (amended).** For a subscription whose limit is set while its
delivery count is still zero (e.g. `UNSUB sid max` before any delivery),
the `MSG` lines written for it never exceed `max`: over `k` delivery
attempts exactly `min k max` are written; while `k ≤ max` the
subscription stays in the sid-map and the Index, and the attempt that
would exceed the limit removes it from both without delivering. -/
theorem deliverMsg_respects_max (w : World) (i : Nat) (sub : Sub) (k : Nat)
    (hstore : storeGet w.store i = some sub) (hconn : w.conn = true)
    (hm : 0 < sub.max) (hnm : sub.nm = 0) (hmsgs : w.msgs.count i = 0) :
    (((deliverN w i k).msgs.count i : Int) = min (k : Int) sub.max ∧
     ((deliverN w i k).msgs.count i : Int) ≤ sub.max) ∧
    ((k : Int) ≤ sub.max →
      (deliverN w i k).subs = w.subs ∧ (deliverN w i k).sl = w.sl) ∧
    (sub.max < (k : Int) →
      (deliverN w i k).subs = hmRemove w.subs sub.sid ∧
      (deliverN w i k).sl = w.sl.filter (fun j => j ≠ i)) := by
  obtain ⟨-, -, h3, h4, h5⟩ := deliverN_char w i sub k hstore hconn hm
  have hcount : (deliverN w i k).msgs.count i =
      (min (sub.nm + k) sub.max - min sub.nm sub.max).toNat := by
    rw [h3, List.count_append, hmsgs, List.count_replicate]
    simp
  constructor
  · rw [hcount, hnm]
    constructor
    · omega
    · omega
  constructor
  · intro hk
    have hcond : ¬ (0 < k ∧ sub.max < sub.nm + k) := by
      rintro ⟨-, hc⟩; rw [hnm] at hc; omega
    rw [h4, if_neg hcond, h5, if_neg hcond]
    exact ⟨rfl, rfl⟩
  · intro hk
    have hk0 : 0 < k := by
      rcases Nat.eq_zero_or_pos k with h0 | h0
      · subst h0; simp at hk; omega
      · exact h0
    have hcond : 0 < k ∧ sub.max < sub.nm + k := ⟨hk0, by rw [hnm]; omega⟩
    rw [h4, if_pos hcond, h5, if_pos hcond]
    exact ⟨rfl, rfl⟩

/-- Witness for `deliverMsg_respects_max`: `SUB foo 1` then `UNSUB 1 2`;
over 5 delivery attempts exactly 2 `MSG` lines are written and the
subscription has been removed from sid-map and Index. -/
theorem deliverMsg_respects_max_witness :
    (let w := runOk (runOk (initWorld false false)
        (fun w0 => processSub w0 ['f','o','o',' ','1']))
        (fun w0 => processUnsub w0 ['1',' ','2'])
     (((deliverN w 0 5).msgs.count 0 : Int) = min (5 : Int) 2 ∧
      ((deliverN w 0 5).msgs.count 0 : Int) ≤ 2) ∧
     ((5 : Int) ≤ 2 →
       (deliverN w 0 5).subs = w.subs ∧ (deliverN w 0 5).sl = w.sl) ∧
     ((2 : Int) < 5 →
       (deliverN w 0 5).subs = hmRemove w.subs ['1'] ∧
       (deliverN w 0 5).sl = w.sl.filter (fun j => j ≠ 0))) :=
  deliverMsg_respects_max
    (runOk (runOk (initWorld false false)
        (fun w0 => processSub w0 ['f','o','o',' ','1']))
      (fun w0 => processUnsub w0 ['1',' ','2']))
    0 { subject := ['f','o','o'], queue := none, sid := ['1'], nm := 0, max := 2 } 5
    (by decide) (by decide) (by decide) (by decide) (by decide)

/-- **C1 counterexample.** `SUB foo 1`, three deliveries, then
`UNSUB 1 2`: the subscription now has `max = 2 > 0` while three `MSG`
lines were written for it, so the claim as stated (deliveries never
exceed a positive `max`) fails when the limit is set after the
deliveries. -/
theorem deliverMsg_max_late_cex :
    (let w1 := runOk (initWorld false false)
        (fun w => processSub w ['f','o','o',' ','1'])
     let w2 := deliverN w1 0 3
     let w3 := runOk w2 (fun w => processUnsub w ['1',' ','2'])
     (storeGet w3.store 0).map Sub.max = some 2 ∧ w3.msgs.count 0 = 3) := by
  decide

/-- **C8 (amended).** `closeConnection` on an open session stops both
timers, clears the connection, removes the session from the Hub registry,
and removes every subscription currently bound in the session's sid-map
from the Subject Index, so no subsequent `slMatch` returns any of those;
a second call is a no-op.  (A subscription whose sid binding was
displaced by a later `SUB` with the same sid is not in the sid-map and
stays in the Index — see `closeConnection_displaced_cex`.) -/
theorem closeConnection_spec (w : World) (hconn : w.conn = true) :
    (closeConnection w).conn = false ∧
    (closeConnection w).atmr = false ∧
    (closeConnection w).ptmr = false ∧
    (closeConnection w).registry = false ∧
    (∀ i ∈ w.subs.map Prod.snd, i ∉ (closeConnection w).sl) ∧
    (∀ subj i, i ∈ slMatch (closeConnection w) subj → i ∉ w.subs.map Prod.snd) ∧
    closeConnection (closeConnection w) = closeConnection w := by
  have hcc : closeConnection w =
      { w with atmr := false, ptmr := false, conn := false, registry := false,
               sl := w.sl.filter (fun i => !(w.subs.map Prod.snd).contains i) } := by
    rw [closeConnection, if_neg (by simp [hconn])]
  have hnotin : ∀ i ∈ w.subs.map Prod.snd, i ∉ (closeConnection w).sl := by
    intro i hi hmem
    rw [hcc] at hmem
    have h2 := List.of_mem_filter hmem
    simp [hi] at h2
  refine ⟨by rw [hcc], by rw [hcc], by rw [hcc], by rw [hcc], hnotin, ?_, ?_⟩
  · intro subj i hi hin
    exact hnotin i hin (List.mem_filter.mp hi).1
  · conv_lhs => rw [closeConnection]
    rw [if_pos (show (!(closeConnection w).conn) = true by rw [hcc]; rfl)]
/-- Witness for `closeConnection_spec`: a session with `SUB foo 1` and
`SUB bar 2` installed. -/
theorem closeConnection_spec_witness :
    (let w := runOk (runOk (initWorld false false)
        (fun w0 => processSub w0 ['f','o','o',' ','1']))
        (fun w0 => processSub w0 ['b','a','r',' ','2'])
     (closeConnection w).conn = false ∧
     (closeConnection w).atmr = false ∧
     (closeConnection w).ptmr = false ∧
     (closeConnection w).registry = false ∧
     (∀ i ∈ w.subs.map Prod.snd, i ∉ (closeConnection w).sl) ∧
     (∀ subj i, i ∈ slMatch (closeConnection w) subj → i ∉ w.subs.map Prod.snd) ∧
     closeConnection (closeConnection w) = closeConnection w) :=
  closeConnection_spec
    (runOk (runOk (initWorld false false)
        (fun w0 => processSub w0 ['f','o','o',' ','1']))
      (fun w0 => processSub w0 ['b','a','r',' ','2']))
    (by decide)

/-- **C8 counterexample.** `SUB foo 1` then `SUB bar 1` rebinds sid `1`,
displacing the first subscription from the sid-map while it stays in the
Index.  `closeConnection` walks only the sid-map, so after it completes
`slMatch` on `foo` still returns the displaced subscription of the closed
session, refuting the claim that no subsequent match returns any of its
subscriptions. -/
theorem closeConnection_displaced_cex :
    (let w1 := runOk (initWorld false false)
        (fun w => processSub w ['f','o','o',' ','1'])
     let w2 := runOk w1 (fun w => processSub w ['b','a','r',' ','1'])
     let w3 := closeConnection w2
     w3.conn = false ∧ slMatch w3 ['f','o','o'] = [0] ∧
       (storeGet w3.store 0).map Sub.subject = some ['f','o','o']) := by
  decide

/-- **C7.** When one of the three buffered writes of `deliverMsg` fails,
the write deadline ends cleared and (the lock being released on every
path of the sequential embedding) the outcome depends only on the
timeout classification: a timeout closes the **target** session as a
slow consumer, any other error is only logged and closes nothing; in
both cases the originating session's state is completely unchanged. -/
theorem deliverMsg_write_error (st : DState) (tid hdrLen msgLen j : Nat) (tmo : Bool)
    (hconn : st.target.conn = true) (hdl : st.target.deadline = false)
    (hkeep : ¬ (st.sub.max > 0 ∧ st.sub.nm + 1 > st.sub.max)) :
    (deliverMsgNet st tid hdrLen msgLen (some (j, tmo))).origin = st.origin ∧
    (deliverMsgNet st tid hdrLen msgLen (some (j, tmo))).target.deadline = false ∧
    (tmo = true → (deliverMsgNet st tid hdrLen msgLen (some (j, tmo))).target.conn = false) ∧
    (tmo = false →
      (deliverMsgNet st tid hdrLen msgLen (some (j, tmo))).target.conn = true ∧
      (deliverMsgNet st tid hdrLen msgLen (some (j, tmo))).target.sl = st.target.sl ∧
      (deliverMsgNet st tid hdrLen msgLen (some (j, tmo))).target.sidBound =
        st.target.sidBound ∧
      (deliverMsgNet st tid hdrLen msgLen (some (j, tmo))).target.registry =
        st.target.registry) := by
  have hkeep2 : ¬ (st.sub.max > (0 : Int) ∧ st.sub.nm + 1 > st.sub.max) := hkeep
  simp only [deliverMsgNet, hconn]
  rw [if_neg (by simp)]
  rw [if_neg (by simpa using hkeep2)]
  by_cases hds : st.target.avail < hdrLen + msgLen + 2 <;>
    cases tmo <;>
      simp [hds, hdl, hconn]

/-- Witness for `deliverMsg_write_error`: a concrete two-session state
with a failing timeout write on the second chunk. -/
theorem deliverMsg_write_error_witness :
    (let c : WClient :=
      { conn := true, deadline := false, atmr := false, ptmr := true
        registry := true, avail := 4, written := 0, sl := true
        sidBound := true, pcd := [] }
     let st : DState := { origin := c, target := c, sub := subDefault }
     (deliverMsgNet st 7 10 20 (some (1, true))).origin = st.origin ∧
     (deliverMsgNet st 7 10 20 (some (1, true))).target.deadline = false ∧
     (true = true → (deliverMsgNet st 7 10 20 (some (1, true))).target.conn = false) ∧
     (true = false →
       (deliverMsgNet st 7 10 20 (some (1, true))).target.conn = true ∧
       (deliverMsgNet st 7 10 20 (some (1, true))).target.sl = st.target.sl ∧
       (deliverMsgNet st 7 10 20 (some (1, true))).target.sidBound = st.target.sidBound ∧
       (deliverMsgNet st 7 10 20 (some (1, true))).target.registry = st.target.registry)) :=
  deliverMsg_write_error
    { origin :=
        { conn := true, deadline := false, atmr := false, ptmr := true
          registry := true, avail := 4, written := 0, sl := true
          sidBound := true, pcd := [] }
      target :=
        { conn := true, deadline := false, atmr := false, ptmr := true
          registry := true, avail := 4, written := 0, sl := true
          sidBound := true, pcd := [] }
      sub := subDefault }
    7 10 20 1 true rfl rfl (by decide)

theorem getD_mem {α : Type} (l : List α) (n : Nat) (d : α) (h : n < l.length) :
    l.getD n d ∈ l := by
  rw [List.getD_eq_getElem?_getD, List.getElem?_eq_getElem h]
  simp

theorem qmapAdd_keys (qm : List (Bytes × List (Nat × Sub))) (q : Bytes) (p : Nat × Sub) :
    (qmapAdd qm q p).map Prod.fst =
      if q ∈ qm.map Prod.fst then qm.map Prod.fst else qm.map Prod.fst ++ [q] := by
  induction qm with
  | nil => simp [qmapAdd]
  | cons g rest ih =>
    by_cases hg : g.1 = q
    · rw [qmapAdd, if_pos hg]
      simp [hg]
    · rw [qmapAdd, if_neg hg]
      simp only [List.map_cons, ih]
      by_cases hq : q ∈ rest.map Prod.fst
      · rw [if_pos hq, if_pos (by simp [hq])]
      · rw [if_neg hq, if_neg (by simp [hq, Ne.symm hg]), List.cons_append]

theorem qmapAdd_mem_sub (qm : List (Bytes × List (Nat × Sub))) (q : Bytes)
    (p : Nat × Sub) :
    ∀ g ∈ qmapAdd qm q p, ∀ x ∈ g.2,
      (∃ g0 ∈ qm, g0.1 = g.1 ∧ x ∈ g0.2) ∨ (x = p ∧ g.1 = q) := by
  induction qm with
  | nil =>
    intro g hg x hx
    simp [qmapAdd] at hg
    subst hg
    simp at hx
    exact Or.inr ⟨hx, rfl⟩
  | cons g0 rest ih =>
    intro g hg x hx
    by_cases hq : g0.1 = q
    · rw [qmapAdd, if_pos hq] at hg
      rcases List.mem_cons.mp hg with hg | hg
      · subst hg
        simp only [] at hx
        rcases List.mem_append.mp hx with hx | hx
        · exact Or.inl ⟨g0, by simp, hq, hx⟩
        · simp at hx
          exact Or.inr ⟨hx, rfl⟩
      · exact Or.inl ⟨g, by simp [hg], rfl, hx⟩
    · rw [qmapAdd, if_neg hq] at hg
      rcases List.mem_cons.mp hg with hg | hg
      · subst hg
        exact Or.inl ⟨g, by simp, rfl, hx⟩
      · rcases ih g hg x hx with ⟨g1, hg1, he, hxg⟩ | hr
        · exact Or.inl ⟨g1, by simp [hg1], he, hxg⟩
        · exact Or.inr hr

theorem qmapAdd_nonempty (qm : List (Bytes × List (Nat × Sub))) (q : Bytes)
    (p : Nat × Sub) (h : ∀ g ∈ qm, g.2 ≠ []) :
    ∀ g ∈ qmapAdd qm q p, g.2 ≠ [] := by
  induction qm with
  | nil =>
    intro g hg
    simp [qmapAdd] at hg
    subst hg
    simp
  | cons g0 rest ih =>
    intro g hg
    by_cases hq : g0.1 = q
    · rw [qmapAdd, if_pos hq] at hg
      rcases List.mem_cons.mp hg with hg | hg
      · subst hg; simp
      · exact h g (by simp [hg])
    · rw [qmapAdd, if_neg hq] at hg
      rcases List.mem_cons.mp hg with hg | hg
      · subst hg; exact h g (by simp)
      · exact ih (fun g2 hg2 => h g2 (by simp [hg2])) g hg

/-- Structure of the queue map built by `processMsg`: groups are
non-empty, every member carries the group's queue name and comes from the
match result, group names are unique, and a queue name has a group
exactly when some match-result subscription carries it. -/
theorem buildQmap_wf (r : List (Nat × Sub)) :
    (∀ g ∈ buildQmap r, g.2 ≠ [] ∧ ∀ x ∈ g.2, x.2.queue = some g.1 ∧ x ∈ r) ∧
    ((buildQmap r).map Prod.fst).Nodup ∧
    (∀ q, q ∈ (buildQmap r).map Prod.fst ↔ ∃ x ∈ r, x.2.queue = some q) := by
  induction r using List.reverseRecOn with
  | nil =>
    refine ⟨?_, ?_, ?_⟩ <;> simp [buildQmap]
  | append_singleton r p ih =>
    obtain ⟨ih1, ih2, ih3⟩ := ih
    rcases hq : p.2.queue with _ | q
    · have hstep2 : buildQmap (r ++ [p]) = buildQmap r := by
        simp only [buildQmap, List.foldl_append, List.foldl_cons, List.foldl_nil, hq]
      rw [hstep2]
      refine ⟨?_, ih2, ?_⟩
      · intro g hg
        refine ⟨(ih1 g hg).1, fun x hx => ⟨((ih1 g hg).2 x hx).1, ?_⟩⟩
        exact List.mem_append.mpr (Or.inl ((ih1 g hg).2 x hx).2)
      · intro q2
        rw [ih3 q2]
        constructor
        · rintro ⟨x, hx, hxq⟩
          exact ⟨x, List.mem_append.mpr (Or.inl hx), hxq⟩
        · rintro ⟨x, hx, hxq⟩
          rcases List.mem_append.mp hx with hx | hx
          · exact ⟨x, hx, hxq⟩
          · simp only [List.mem_singleton] at hx
            subst hx
            rw [hq] at hxq
            cases hxq
    · have hstep2 : buildQmap (r ++ [p]) = qmapAdd (buildQmap r) q p := by
        simp only [buildQmap, List.foldl_append, List.foldl_cons, List.foldl_nil, hq]
      rw [hstep2]
      refine ⟨?_, ?_, ?_⟩
      · intro g hg
        constructor
        · exact qmapAdd_nonempty _ q p (fun g2 hg2 => (ih1 g2 hg2).1) g hg
        · intro x hx
          rcases qmapAdd_mem_sub _ q p g hg x hx with ⟨g0, hg0, he, hxg⟩ | ⟨hxp, hgq⟩
          · have h0 := (ih1 g0 hg0).2 x hxg
            exact ⟨he ▸ h0.1, List.mem_append.mpr (Or.inl h0.2)⟩
          · subst hxp
            rw [hgq, hq]
            exact ⟨rfl, List.mem_append.mpr (Or.inr (by simp))⟩
      · rw [qmapAdd_keys]
        by_cases hmem : q ∈ (buildQmap r).map Prod.fst
        · rw [if_pos hmem]; exact ih2
        · rw [if_neg hmem]
          rw [List.nodup_append]
          exact ⟨ih2, List.nodup_singleton q, by simpa using hmem⟩
      · intro q2
        rw [qmapAdd_keys]
        by_cases hmem : q ∈ (buildQmap r).map Prod.fst
        · rw [if_pos hmem]
          constructor
          · intro h2
            obtain ⟨x, hx, hxq⟩ := (ih3 q2).mp h2
            exact ⟨x, List.mem_append.mpr (Or.inl hx), hxq⟩
          · rintro ⟨x, hx, hxq⟩
            rcases List.mem_append.mp hx with hx | hx
            · exact (ih3 q2).mpr ⟨x, hx, hxq⟩
            · simp only [List.mem_singleton] at hx
              subst hx
              rw [hq] at hxq
              injection hxq with hqq
              rw [← hqq]
              exact hmem
        · rw [if_neg hmem]
          constructor
          · intro h2
            rcases List.mem_append.mp h2 with h2 | h2
            · obtain ⟨x, hx, hxq⟩ := (ih3 q2).mp h2
              exact ⟨x, List.mem_append.mpr (Or.inl hx), hxq⟩
            · simp only [List.mem_singleton] at h2
              subst h2
              exact ⟨p, List.mem_append.mpr (Or.inr (by simp)), hq⟩
          · rintro ⟨x, hx, hxq⟩
            rcases List.mem_append.mp hx with hx | hx
            · exact List.mem_append.mpr (Or.inl ((ih3 q2).mpr ⟨x, hx, hxq⟩))
            · simp only [List.mem_singleton] at hx
              subst hx
              rw [hq] at hxq
              injection hxq with hqq
              rw [← hqq]
              exact List.mem_append.mpr (Or.inr (by simp))

theorem nodup_filter_length_one {α : Type} [DecidableEq α] (l : List α) (a : α)
    (hnd : l.Nodup) (ha : a ∈ l) : (l.filter (fun x => x = a)).length = 1 := by
  induction l with
  | nil => cases ha
  | cons b rest ih =>
    rw [List.nodup_cons] at hnd
    by_cases hb : b = a
    · subst hb
      rw [List.filter_cons, if_pos (by simp)]
      have hrest : rest.filter (fun x => x = b) = [] := by
        rw [List.filter_eq_nil_iff]
        intro x hx
        simp only [decide_eq_true_eq]
        intro hxb
        exact hnd.1 (hxb ▸ hx)
      rw [hrest]
      rfl
    · rw [List.filter_cons, if_neg (by simp [hb])]
      have ha2 : a ∈ rest := by
        rcases List.mem_cons.mp ha with h | h
        · exact absurd h.symm hb
        · exact h
      exact ih hnd.2 ha2

theorem picks_filter_count (qm : List (Bytes × List (Nat × Sub))) (randf : Bytes → Nat)
    (q : Bytes) (hne : ∀ g ∈ qm, g.2 ≠ [])
    (hq : ∀ g ∈ qm, ∀ x ∈ g.2, x.2.queue = some g.1) :
    ((qm.map (fun g => g.2.getD (randf g.1 % g.2.length) (0, subDefault))).filter
        (fun p => p.2.queue = some q)).length =
      ((qm.map Prod.fst).filter (fun k => k = q)).length := by
  induction qm with
  | nil => simp
  | cons g rest ih =>
    have hglen : randf g.1 % g.2.length < g.2.length :=
      Nat.mod_lt _ (List.length_pos.mpr (hne g (by simp)))
    have hpickmem := getD_mem g.2 _ (0, subDefault) hglen
    have hpickq := hq g (by simp) _ hpickmem
    have ihr := ih (fun g2 hg2 => hne g2 (by simp [hg2]))
      (fun g2 hg2 => hq g2 (by simp [hg2]))
    simp only [List.map_cons, List.filter_cons, hpickq]
    by_cases hgq : g.1 = q
    · subst hgq
      rw [if_pos (by simp), if_pos (by simp)]
      rw [List.length_cons, List.length_cons, ihr]
    · rw [if_neg (by simp [hgq]), if_neg (by simp [hgq])]
      exact ihr

/-- **C4.** For any match result, `processMsg` invokes delivery for every
plain (non-queue) subscription of the result, and for each queue group
present it invokes delivery for exactly one member (the one at the
PRNG-drawn index modulo the group size); every invoked target comes from
the match result, and across `K` publishes the queue group accounts for
exactly `K` delivery invocations. -/
theorem processMsg_fanout (r : List (Nat × Sub)) (randf : Bytes → Nat) (q : Bytes) :
    (processMsgTargets r randf).filter (fun p => p.2.queue = none) =
      r.filter (fun p => p.2.queue = none) ∧
    ((∃ p ∈ r, p.2.queue = some q) →
      ((processMsgTargets r randf).filter
          (fun p => p.2.queue = some q)).length = 1) ∧
    (∀ p ∈ processMsgTargets r randf, p ∈ r) ∧
    (∀ draws : List (Bytes → Nat), (∃ p ∈ r, p.2.queue = some q) →
      (draws.map (fun rf =>
          ((processMsgTargets r rf).filter
            (fun p => p.2.queue = some q)).length)).sum = draws.length) := by
  obtain ⟨hwf1, hwf2, hwf3⟩ := buildQmap_wf r
  have hpickdec : ∀ (rf : Bytes → Nat) x,
      x ∈ (buildQmap r).map
          (fun g => g.2.getD (rf g.1 % g.2.length) (0, subDefault)) →
      ∃ g ∈ buildQmap r, x ∈ g.2 := by
    intro rf x hx
    obtain ⟨g, hg, hgx⟩ := List.mem_map.mp hx
    have hglen : rf g.1 % g.2.length < g.2.length :=
      Nat.mod_lt _ (List.length_pos.mpr (hwf1 g hg).1)
    exact ⟨g, hg, hgx ▸ getD_mem g.2 _ (0, subDefault) hglen⟩
  have hcount : ∀ rf : Bytes → Nat, (∃ p ∈ r, p.2.queue = some q) →
      ((processMsgTargets r rf).filter
          (fun p => p.2.queue = some q)).length = 1 := by
    intro rf hex
    rw [processMsgTargets, List.filter_append]
    have hplains : (r.filter (fun p => p.2.queue = none)).filter
        (fun p => p.2.queue = some q) = [] := by
      rw [List.filter_eq_nil_iff]
      intro x hx
      have h1 := List.of_mem_filter hx
      simp only [decide_eq_true_eq] at h1
      simp [h1]
    rw [hplains]
    have hpc := picks_filter_count (buildQmap r) rf q
      (fun g hg => (hwf1 g hg).1)
      (fun g hg x hx => ((hwf1 g hg).2 x hx).1)
    simp only [List.nil_append, hpc]
    exact nodup_filter_length_one _ _ hwf2 ((hwf3 q).mpr hex)
  refine ⟨?_, hcount randf, ?_, ?_⟩
  · rw [processMsgTargets, List.filter_append]
    have h1 : (r.filter (fun p => p.2.queue = none)).filter
        (fun p => p.2.queue = none) = r.filter (fun p => p.2.queue = none) := by
      simp [List.filter_filter]
    have h2 : (((buildQmap r).map
        (fun g => g.2.getD (randf g.1 % g.2.length) (0, subDefault))).filter
          (fun p => p.2.queue = none)) = [] := by
      rw [List.filter_eq_nil_iff]
      intro x hx
      obtain ⟨g, hg, hxg⟩ := hpickdec randf x hx
      have := ((hwf1 g hg).2 x hxg).1
      simp [this]
    rw [h1, h2, List.append_nil]
  · intro p hp
    rw [processMsgTargets] at hp
    rcases List.mem_append.mp hp with hp | hp
    · exact List.mem_of_mem_filter hp
    · obtain ⟨g, hg, hxg⟩ := hpickdec randf p hp
      exact ((hwf1 g hg).2 p hxg).2
  · intro draws hex
    induction draws with
    | nil => rfl
    | cons d rest ihd =>
      simp only [List.map_cons, List.sum_cons, hcount d hex, ihd, List.length_cons]
      omega

/-- Witness for `processMsg_fanout`: a match result with one plain
subscription and a two-member queue group named `w` yields exactly one
queue delivery. -/
theorem processMsg_fanout_witness :
    ((processMsgTargets
        [(0, { subject := ['t'], queue := none, sid := ['1'], nm := 0, max := 0 }),
         (1, { subject := ['t'], queue := some ['w'], sid := ['2'], nm := 0, max := 0 }),
         (2, { subject := ['t'], queue := some ['w'], sid := ['3'], nm := 0, max := 0 })]
        (fun _ => 7)).filter
      (fun p => p.2.queue = some ['w'])).length = 1 :=
  (processMsg_fanout
    [(0, { subject := ['t'], queue := none, sid := ['1'], nm := 0, max := 0 }),
     (1, { subject := ['t'], queue := some ['w'], sid := ['2'], nm := 0, max := 0 }),
     (2, { subject := ['t'], queue := some ['w'], sid := ['3'], nm := 0, max := 0 })]
    (fun _ => 7) ['w']).2.1 (by decide)

theorem hmGet_none_iff (m : List (Bytes × Nat)) (k : Bytes) :
    hmGet m k = none ↔ k ∉ m.map Prod.fst := by
  induction m with
  | nil => simp [hmGet]
  | cons p rest ih =>
    by_cases hp : p.1 = k
    · rw [hmGet, if_pos hp]
      simp [hp]
    · rw [hmGet, if_neg hp]
      simp [ih, Ne.symm hp]

theorem hmSet_fresh (m : List (Bytes × Nat)) (k : Bytes) (v : Nat)
    (h : hmGet m k = none) : hmSet m k v = m ++ [(k, v)] := by
  induction m with
  | nil => rfl
  | cons p rest ih =>
    rw [hmGet] at h
    by_cases hp : p.1 = k
    · rw [if_pos hp] at h; cases h
    · rw [if_neg hp] at h
      rw [hmSet, if_neg hp, ih h, List.cons_append]

theorem hmGet_mem (m : List (Bytes × Nat)) (k : Bytes) (v : Nat)
    (h : hmGet m k = some v) : (k, v) ∈ m := by
  induction m with
  | nil => cases h
  | cons p rest ih =>
    rw [hmGet] at h
    by_cases hp : p.1 = k
    · rw [if_pos hp] at h
      injection h with hv
      cases p with
      | mk pk pv =>
        simp only [] at hp hv
        subst hp
        subst hv
        exact List.mem_cons_self _ _
    · rw [if_neg hp] at h
      exact List.mem_cons.mpr (Or.inr (ih h))

theorem filter_map_comm {α β : Type} (m : List α) (f : α → β) (P : α → Bool)
    (Q : β → Bool) (h : ∀ p ∈ m, P p = Q (f p)) :
    (m.filter P).map f = (m.map f).filter Q := by
  induction m with
  | nil => rfl
  | cons a t ih =>
    have ha := h a (by simp)
    have iht := ih fun p hp => h p (by simp [hp])
    by_cases hf : P a = true
    · rw [List.filter_cons, if_pos hf, List.map_cons, List.map_cons,
        List.filter_cons, if_pos (ha ▸ hf), iht]
    · rw [List.filter_cons, if_neg hf, List.map_cons, List.filter_cons,
        if_neg (by rw [← ha]; exact hf), iht]

theorem nodup_map_inj {α β : Type} (f : α → β) (m : List α)
    (hnd : (m.map f).Nodup) (x y : α) (hx : x ∈ m) (hy : y ∈ m)
    (hf : f x = f y) : x = y := by
  induction m with
  | nil => cases hx
  | cons a t ih =>
    rw [List.map_cons, List.nodup_cons] at hnd
    rcases List.mem_cons.mp hx with ex | ex <;> rcases List.mem_cons.mp hy with ey | ey
    · rw [ex, ey]
    · exact absurd (by rw [← ex, hf]; exact List.mem_map_of_mem f ey) hnd.1
    · exact absurd (by rw [← ey, ← hf]; exact List.mem_map_of_mem f ex) hnd.1
    · exact ih hnd.2 ex ey

theorem Inv_remove (w : World) (i : Nat) (s : Bytes) (hinv : Inv w)
    (hbind : (s, i) ∈ w.subs) :
    Inv { w with subs := hmRemove w.subs s
                 sl := w.sl.filter (fun j => j ≠ i) } := by
  obtain ⟨h1, h2, h3, h4, h5⟩ := hinv
  have hpt : ∀ p ∈ w.subs, (decide (p.1 ≠ s)) = (decide (p.2 ≠ i)) := by
    intro p hp
    rw [decide_eq_decide]
    constructor
    · intro hne hpi
      have he := nodup_map_inj Prod.snd w.subs h3 p (s, i) hp hbind hpi
      exact hne (by rw [he])
    · intro hne hps
      have he := nodup_map_inj Prod.fst w.subs h2 p (s, i) hp hbind hps
      exact hne (by rw [he])
  have hsub : (hmRemove w.subs s).Sublist w.subs := by
    rw [hmRemove]
    exact List.filter_sublist _
  refine ⟨?_, ?_, ?_, ?_, ?_⟩
  · show w.sl.filter (fun j => j ≠ i) = (hmRemove w.subs s).map Prod.snd
    rw [hmRemove, filter_map_comm w.subs Prod.snd (fun p => decide (p.1 ≠ s))
      (fun v => decide (v ≠ i)) hpt, ← h1]
  · exact List.Nodup.sublist (hsub.map Prod.fst) h2
  · exact List.Nodup.sublist (hsub.map Prod.snd) h3
  · intro p hp
    exact h4 p (hsub.mem hp)
  · intro p hp
    exact h5 p (hsub.mem hp)

theorem Inv_install (w : World) (subject sid : Bytes) (queue : Option Bytes)
    (hinv : Inv w) (hfresh : hmGet w.subs sid = none) :
    Inv { w with
      store := (w.nextId,
        { subject := subject, queue := queue, sid := sid, nm := 0, max := 0 }) :: w.store
      nextId := w.nextId + 1
      subs := hmSet w.subs sid w.nextId
      sl := w.sl ++ [w.nextId] } := by
  obtain ⟨h1, h2, h3, h4, h5⟩ := hinv
  have hset := hmSet_fresh w.subs sid w.nextId hfresh
  have hnotv : w.nextId ∉ w.subs.map Prod.snd := by
    intro hmem
    obtain ⟨p, hp, hpe⟩ := List.mem_map.mp hmem
    exact absurd (hpe ▸ h4 p hp) (lt_irrefl _)
  refine ⟨?_, ?_, ?_, ?_, ?_⟩
  · show w.sl ++ [w.nextId] = (hmSet w.subs sid w.nextId).map Prod.snd
    rw [hset, List.map_append, ← h1]
    rfl
  · show ((hmSet w.subs sid w.nextId).map Prod.fst).Nodup
    rw [hset, List.map_append, List.nodup_append]
    refine ⟨h2, List.nodup_singleton _, ?_⟩
    intro x hx
    simp only [List.map_cons, List.map_nil, List.mem_singleton]
    intro he
    exact absurd (he ▸ hx) ((hmGet_none_iff w.subs sid).mp hfresh)
  · show ((hmSet w.subs sid w.nextId).map Prod.snd).Nodup
    rw [hset, List.map_append, List.nodup_append]
    refine ⟨h3, List.nodup_singleton _, ?_⟩
    intro x hx
    simp only [List.map_cons, List.map_nil, List.mem_singleton]
    intro he
    exact absurd (he ▸ hx) hnotv
  · intro p hp
    show p.2 < w.nextId + 1
    rw [hset] at hp
    rcases List.mem_append.mp hp with hp | hp
    · exact Nat.lt_succ_of_lt (h4 p hp)
    · simp only [List.mem_singleton] at hp
      rw [hp]
      exact Nat.lt_succ_self _
  · intro p hp
    rw [hset] at hp
    rcases List.mem_append.mp hp with hp | hp
    · obtain ⟨subr, hsg, hss⟩ := h5 p hp
      refine ⟨subr, ?_, hss⟩
      show storeGet ((w.nextId, _) :: w.store) p.2 = some subr
      rw [storeGet, if_neg ?_]
      · exact hsg
      · exact (Nat.ne_of_lt (h4 p hp)).symm
    · simp only [List.mem_singleton] at hp
      rw [hp]
      exact ⟨_, by rw [storeGet, if_pos rfl], rfl⟩

theorem Inv_ackWrap (w : World) (hinv : Inv w) :
    Inv (if w.verbose then emit w .ack else w) := by
  by_cases hv : w.verbose = true
  · rw [if_pos hv]; exact hinv
  · rw [if_neg hv]; exact hinv

theorem Inv_storeSet (w : World) (i : Nat) (subr v : Sub) (hinv : Inv w)
    (hsg : storeGet w.store i = some subr) (hsid : v.sid = subr.sid) :
    Inv { w with store := storeSet w.store i v } := by
  obtain ⟨h1, h2, h3, h4, h5⟩ := hinv
  refine ⟨h1, h2, h3, h4, ?_⟩
  intro p hp
  by_cases hpi : p.2 = i
  · obtain ⟨subr2, hsg2, hss2⟩ := h5 p hp
    rw [hpi] at hsg2
    rw [hsg2] at hsg
    injection hsg with he
    refine ⟨v, ?_, ?_⟩
    · show storeGet (storeSet w.store i v) p.2 = some v
      rw [hpi]
      exact storeGet_storeSet_self _ _ _ _ hsg2
    · rw [hsid, ← he]
      exact hss2
  · obtain ⟨subr2, hsg2, hss2⟩ := h5 p hp
    refine ⟨subr2, ?_, hss2⟩
    show storeGet (storeSet w.store i v) p.2 = some subr2
    rw [storeGet_storeSet_ne w.store i p.2 v hpi]
    exact hsg2

theorem Inv_unsubscribe (w : World) (i : Nat) (hinv : Inv w)
    (hi : i ∈ w.subs.map Prod.snd) : Inv (unsubscribe w i) := by
  obtain ⟨p, hp, hpi⟩ := List.mem_map.mp hi
  obtain ⟨subr, hsg, hss⟩ := hinv.2.2.2.2 p hp
  have hsg2 : storeGet w.store i = some subr := by rw [← hpi]; exact hsg
  have hbind : (subr.sid, i) ∈ w.subs := by
    have he : (subr.sid, i) = p := by
      cases p with
      | mk pk pv =>
        simp only [] at hss hpi
        rw [hss, hpi]
    rw [he]
    exact hp
  rw [unsubscribe_eq w i subr hsg2]
  by_cases hc : subr.max > 0 ∧ subr.nm ≤ subr.max
  · rw [if_pos hc]; exact hinv
  · rw [if_neg hc]; exact Inv_remove w i subr.sid hinv hbind

theorem Inv_deliver (w : World) (i : Nat) (hinv : Inv w)
    (hi : i ∈ w.sl) : Inv (deliverMsg w i) := by
  have hiv : i ∈ w.subs.map Prod.snd := by rw [← hinv.1]; exact hi
  obtain ⟨p, hp, hpi⟩ := List.mem_map.mp hiv
  obtain ⟨subr, hsg, hss⟩ := hinv.2.2.2.2 p hp
  have hsg2 : storeGet w.store i = some subr := by rw [← hpi]; exact hsg
  by_cases hc : w.conn = true
  · have hsid : ({ subr with nm := subr.nm + 1 } : Sub).sid = subr.sid := rfl
    have hw1 : Inv { w with store := storeSet w.store i { subr with nm := subr.nm + 1 } } :=
      Inv_storeSet w i subr _ hinv hsg2 hsid
    by_cases hover : subr.max > 0 ∧ subr.nm + 1 > subr.max
    · rw [deliverMsg_drop_eq w i subr hsg2 hc hover.1 hover.2]
      have hbind : (subr.sid, i) ∈ w.subs := by
        have he : (subr.sid, i) = p := by
          cases p with
          | mk pk pv =>
            simp only [] at hss hpi
            rw [hss, hpi]
        rw [he]
        exact hp
      exact Inv_remove
        { w with store := storeSet w.store i { subr with nm := subr.nm + 1 } }
        i subr.sid hw1 hbind
    · rw [deliverMsg_write_eq w i subr hsg2 hc hover]
      exact hw1
  · have hcf : w.conn = false := by
      revert hc
      cases w.conn <;> simp
    rw [show deliverMsg w i = w from by simp [deliverMsg, hsg2, hcf]]
    exact hinv

theorem Inv_processSub (w : World) (a : Bytes) (hinv : Inv w)
    (hadm : admissible w (.sub a) = true) :
    Inv (runOk w (fun w2 => processSub w2 a)) := by
  rcases h : splitArg a with _ | ⟨subject, _ | ⟨sid, _ | ⟨sid2, _ | ⟨x, rest⟩⟩⟩⟩ <;>
    simp only [admissible, h] at hadm
  · cases hadm
  · cases hadm
  · rw [Bool.and_eq_true, Option.isNone_iff_eq_none] at hadm
    obtain ⟨hval, hfresh⟩ := hadm
    have hinst := Inv_install w subject sid none hinv hfresh
    simp only [runOk, processSub, h, hval, if_true]
    exact Inv_ackWrap _ hinst
  · rw [Bool.and_eq_true, Option.isNone_iff_eq_none] at hadm
    obtain ⟨hval, hfresh⟩ := hadm
    have hinst := Inv_install w subject sid2 (some sid) hinv hfresh
    simp only [runOk, processSub, h, hval, if_true]
    exact Inv_ackWrap _ hinst
  · cases hadm

theorem Inv_processUnsub (w : World) (a : Bytes) (hinv : Inv w)
    (hadm : admissible w (.unsub a) = true) :
    Inv (runOk w (fun w2 => processUnsub w2 a)) := by
  have hcore : ∀ (sid : Bytes) (mx : Int),
      Inv (match hmGet w.subs sid with
           | some i =>
             match storeGet w.store i with
             | some subr =>
               unsubscribe
                 (if mx > 0 then
                    { w with store := storeSet w.store i { subr with max := mx } }
                  else w) i
             | none => w
           | none => w) := by
    intro sid mx
    rcases hget : hmGet w.subs sid with _ | i
    · exact hinv
    · have hbind := hmGet_mem w.subs sid i hget
      obtain ⟨subr, hsg, hss⟩ := hinv.2.2.2.2 (sid, i) hbind
      simp only [] at hsg hss
      simp only [hsg]
      have hiv : i ∈ w.subs.map Prod.snd := List.mem_map_of_mem Prod.snd hbind
      by_cases hmx : mx > 0
      · rw [if_pos hmx]
        exact Inv_unsubscribe _ i
          (Inv_storeSet w i subr _ hinv hsg rfl) hiv
      · rw [if_neg hmx]
        exact Inv_unsubscribe w i hinv hiv
  rcases h : splitArg a with _ | ⟨sid, _ | ⟨m, _ | ⟨x, rest⟩⟩⟩ <;>
    simp only [admissible, h] at hadm
  · cases hadm
  · simp only [runOk, processUnsub, h]
    exact Inv_ackWrap _ (hcore sid (-1))
  · simp only [runOk, processUnsub, h]
    exact Inv_ackWrap _ (hcore sid (parseSize m))
  · cases hadm

theorem Inv_applyOp (w : World) (op : SOp) (hinv : Inv w)
    (hadm : admissible w op = true) : Inv (applyOp w op) := by
  cases op with
  | sub a => exact Inv_processSub w a hinv hadm
  | unsub a => exact Inv_processUnsub w a hinv hadm
  | deliver i =>
    rw [applyOp]
    refine Inv_deliver w i hinv ?_
    rw [admissible] at hadm
    exact List.mem_of_elem_eq_true hadm

theorem Inv_runOps (w : World) (ops : List SOp) (hinv : Inv w)
    (hadm : admissibleRun w ops = true) : Inv (runOps w ops) := by
  induction ops generalizing w with
  | nil => exact hinv
  | cons op rest ih =>
    rw [admissibleRun, Bool.and_eq_true] at hadm
    exact ih _ (Inv_applyOp w op hinv hadm.1) hadm.2

theorem Inv_initWorld (v p : Bool) : Inv (initWorld v p) := by
  refine ⟨rfl, List.nodup_nil, List.nodup_nil, ?_, ?_⟩ <;> intro q hq <;> cases hq

theorem Inv_consistent (w : World) (hinv : Inv w) :
    sidIndexConsistent w = true := by
  obtain ⟨h1, -, -, -, -⟩ := hinv
  rw [sidIndexConsistent, Bool.and_eq_true]
  constructor
  · rw [List.all_eq_true]
    intro p hp
    rw [h1]
    exact List.elem_eq_true_of_mem (List.mem_map_of_mem Prod.snd hp)
  · rw [List.all_eq_true]
    intro i hi
    rw [h1] at hi
    obtain ⟨p, hp, hpi⟩ := List.mem_map.mp hi
    rw [List.any_eq_true]
    exact ⟨p, hp, by simp [hpi]⟩

/-- **C2 (amended).** After every sequence of admitted session
operations — `processSub` whose subject the Index accepts and whose sid
is not already bound, `processUnsub`, and `deliverMsg` on an installed
handle — a subscription is bound in the session's sid-map if and only if
it is installed in the Subject Index.  (As stated the claim fails: a SUB
whose subject the Index rejects stays in the sid-map with no Index entry
— `sidIndex_inconsistent_cex` — a re-used sid leaves the displaced
subscription in the Index only, and `closeConnection` empties the Index
side without clearing the sid-map.) -/
theorem sidIndex_consistency (v p : Bool) (ops : List SOp)
    (hadm : admissibleRun (initWorld v p) ops = true) :
    sidIndexConsistent (runOps (initWorld v p) ops) = true :=
  Inv_consistent _ (Inv_runOps _ _ (Inv_initWorld v p) hadm)

/-- Witness for `sidIndex_consistency`: a concrete admitted sequence —
two SUBs (one with a queue group and wildcard subject), an UNSUB of the
first and a delivery to the second. -/
theorem sidIndex_consistency_witness :
    sidIndexConsistent (runOps (initWorld true false)
      [.sub ['f','o','o',' ','1'],
       .sub ['b','a','r','.','*',' ','q','g',' ','2'],
       .unsub ['1'],
       .deliver 1]) = true :=
  sidIndex_consistency true false
    [.sub ['f','o','o',' ','1'],
     .sub ['b','a','r','.','*',' ','q','g',' ','2'],
     .unsub ['1'],
     .deliver 1]
    (by decide)

/-- **C2 counterexample.** A single `SUB a..b 1` is rejected by the Index
(empty token) yet leaves its binding in the sid-map, so the sid-map and
the Index disagree immediately after one admitted operation. -/
theorem sidIndex_inconsistent_cex :
    sidIndexConsistent (runOk (initWorld false false)
      (fun w => processSub w ['a','.','.','b',' ','1'])) = false := by
  decide

end Gnatsd
